import Mathlib

/-!
Shallow embedding of the `boc_usd_cad` repository (Rust, two source files:
`src/lib.rs` and `src/main.rs`).

The program fetches USD/CAD exchange-rate observations published by the Bank
of Canada Valet service and selects the observation(s) answering a single-date
or date-range query, falling back to the most recent earlier published date
when the requested date has no observation.

Modelling decisions, in source order:

* `jiff::civil::Date` is a calendar date carrying no time of day; the program
  only ever compares dates, so it is embedded as `Nat` (any order-isomorphic
  encoding such as `yyyymmdd` works; concrete examples below use small
  numbers).  The 10-day look-back subtraction `start_date - 10.days()`
  performed while building the HTTP request is calendar arithmetic invisible
  to every selection claim; the fetch is abstracted by an oracle that receives
  the query parameters, so that subtraction never needs to be evaluated.
* `rust_decimal::Decimal` is an exact decimal number; it is embedded as `ℚ`.
  The `Inv` implementation used by `main.rs` computes `Decimal::ONE / self`
  (the exact reciprocal whenever, as for currency rates, it fits in the
  decimal representation), and `round_dp(4)` rounds to 4 decimal places with
  the default `MidpointNearestEven` (banker's) strategy; both are embedded
  exactly over `ℚ`.
* `Vec<Observation>` becomes `List Observation`; iterator chains become the
  corresponding list functions (`enumerate` ↦ `List.enum`, `filter` ↦
  `List.filter`, `skip` ↦ `List.drop`, `nth` ↦ `List.getElem?`).
* `sort_unstable` sorts by the `Ord` implementation, which compares dates
  only.  Rust leaves the relative order of equal elements unspecified; the
  embedding uses the deterministic `List.insertionSort` by date.
* Both `.unwrap()` calls in the selector can panic (no observation at or
  before the start date, respectively an out-of-range index); a panicking
  computation is embedded as `Option`/`RunResult.panic`.
-/

/-- A calendar date (`jiff::civil::Date`), embedded as `Nat`: the program only
compares dates, and civil dates are totally ordered. -/
abbrev Date := Nat

/-- The observation record of `lib.rs`: a publication date `d` and the nested
exchange rate `fx.v` (value of one unit of the left currency in the right
currency), flattened to the single decimal field `v`.  The `Observation`
struct of `main.rs` (fields `d` and `fxusdcad.v`) has the same shape and is
embedded by this same structure. -/
structure Observation where
  d : Date
  v : ℚ
deriving DecidableEq

/-- The `Ord for Observation` implementation of `lib.rs` lines 110-128 (and
identically `main.rs` lines 121-139): observations are ordered by date only,
ignoring the rate. -/
def obsLE (a b : Observation) : Prop := a.d ≤ b.d

instance : DecidableRel obsLE := fun a b => Nat.decLe a.d b.d

instance : IsTotal Observation obsLE := ⟨fun a b => Nat.le_total a.d b.d⟩

instance : IsTrans Observation obsLE := ⟨fun _ _ _ => Nat.le_trans⟩

/-- Strict date order on observations; used to state uniqueness of sorted
lists with pairwise-distinct dates. -/
def obsLT (a b : Observation) : Prop := a.d < b.d

instance : DecidableRel obsLT := fun a b => Nat.decLt a.d b.d

instance : IsAntisymm Observation obsLT :=
  ⟨fun _ _ h h' => ((Nat.lt_asymm h) h').elim⟩

/-- The in-place `observations.sort_unstable()` of `lib.rs` line 82 (and
`main.rs` line 84), rendered purely: sort ascending by date using the
date-only `Ord`.  Rust's unstable sort leaves the order of equal-date
observations unspecified; the embedding fixes the deterministic insertion
sort, which (like any comparison sort that only sees dates) cannot
distinguish equal-date observations by their rates. -/
def sortObs (observations : List Observation) : List Observation :=
  observations.insertionSort obsLE

/-- One step of `Iterator::max_by_key` on the `(index, observation)` pairs:
`std::cmp::max_by` keeps the accumulator only when it is strictly greater,
so on ties the later element wins (Rust documents that `max_by_key` returns
the last of several equally-maximal elements). -/
def maxByKeyStep (acc y : Nat × Observation) : Nat × Observation :=
  if y.2.d < acc.2.d then acc else y

/-- `iter.max_by_key(|(_, obs)| obs.d)`: `None` on an empty iterator,
otherwise the fold of `maxByKeyStep` over the rest starting at the head. -/
def maxByKeyD : List (Nat × Observation) → Option (Nat × Observation)
  | [] => none
  | x :: xs => some (xs.foldl maxByKeyStep x)

/-- Lines 83-89 of `lib.rs` (identically lines 85-91 of `main.rs`): the index
of the start date in the sorted list, defined as the specified start date or
the last day before it with data —
`observations.iter().enumerate().filter(|(_, obs)| obs.d <= start_date)
.max_by_key(|(_, obs)| obs.d)`, keeping the index.  `none` models the
`.unwrap()` panic when no observation is dated at or before `start_date`. -/
def rangeStart (start_date : Date) (observations : List Observation) : Option Nat :=
  (maxByKeyD ((observations.enum).filter
    (fun q => decide (q.2.d ≤ start_date)))).map Prod.fst

/-- `filter_rates` of `lib.rs` lines 76-96: sort the observations by date,
locate `range_start`, then in range mode keep everything from `range_start`
on (`skip`), in single-date mode keep exactly the observation at
`range_start` (`nth`).  `none` models the two possible `.unwrap()` panics. -/
def filter_rates (start_date : Date) (is_range : Bool)
    (observations : List Observation) : Option (List Observation) :=
  match rangeStart start_date (sortObs observations) with
  | none => none
  | some range_start =>
      if is_range then some ((sortObs observations).drop range_start)
      else ((sortObs observations)[range_start]?).map (fun obs => [obs])

/-- The parsed command line of both variants: a required start date, an
optional end date (presence selects range mode) and the reverse flag. -/
structure Cli where
  start_date : Date
  end_date : Option Date
  reverse : Bool

/-- Outcome of one blocking HTTP round trip to the Valet service, as the two
variants distinguish them: a success status whose body parses into
observations, a success status whose body fails to parse (a panic), a
non-success status whose JSON body is pretty-printed (embedded as the
resulting string), or a transport failure of the call itself (a panic). -/
inductive FetchOutcome where
  | success : List Observation → FetchOutcome
  | badBody : FetchOutcome
  | httpError : String → FetchOutcome
  | transportError : FetchOutcome

/-- Result of one whole program run: a normal result, a reported error value
(`Err` in `lib.rs`, the pretty-printed non-success body in `main.rs`), or an
abnormal termination by `panic!`/`expect`/`unwrap`. -/
inductive RunResult (α : Type) where
  | ok : α → RunResult α
  | err : String → RunResult α
  | panic : RunResult α
deriving DecidableEq

/-- The part of `retrieve_rates` (`lib.rs` lines 53-72) that runs after the
request was built and validated: perform the call and dispatch on the
outcome. -/
def retrieveValidated (fetch : Cli → FetchOutcome) (args : Cli) :
    RunResult (List Observation) :=
  match fetch args with
  | FetchOutcome.success observations =>
      match filter_rates args.start_date args.end_date.isSome observations with
      | some rates => RunResult.ok rates
      | none => RunResult.panic
  | FetchOutcome.badBody => RunResult.panic
  | FetchOutcome.httpError body => RunResult.err body
  | FetchOutcome.transportError => RunResult.panic

/-- `retrieve_rates` of `lib.rs` lines 29-73.  The single network round trip
is abstracted by the oracle `fetch`; the request parameters it depends on
(series name from `reverse`, `start_date` minus the 10-day look-back margin,
optional `end_date`) are all functions of `args`, so the oracle receives
`args`.  While building the request — before `.call()` is reached — the code
panics if the end date precedes the start date. -/
def retrieve_rates (fetch : Cli → FetchOutcome) (args : Cli) :
    RunResult (List Observation) :=
  match args.end_date with
  | none => retrieveValidated fetch args
  | some end_date =>
      if end_date < args.start_date then RunResult.panic
      else retrieveValidated fetch args

namespace Main

/-- The date-only `Ord for Observation` of `main.rs` lines 121-139. -/
def obsLE (a b : Observation) : Prop := a.d ≤ b.d

instance : DecidableRel Main.obsLE := fun a b => Nat.decLe a.d b.d

/-- `observations.sort_unstable()` of `main.rs` line 84. -/
def sortObs (observations : List Observation) : List Observation :=
  observations.insertionSort Main.obsLE

/-- One `max_by` step of the `max_by_key` call in `main.rs`. -/
def maxByKeyStep (acc y : Nat × Observation) : Nat × Observation :=
  if y.2.d < acc.2.d then acc else y

/-- `max_by_key(|(_, obs)| obs.d)` of `main.rs`. -/
def maxByKeyD : List (Nat × Observation) → Option (Nat × Observation)
  | [] => none
  | x :: xs => some (xs.foldl Main.maxByKeyStep x)

/-- Lines 85-91 of `main.rs`: the `range_start` computation, textually the
same iterator chain as in `lib.rs`. -/
def rangeStart (start_date : Date) (observations : List Observation) : Option Nat :=
  (Main.maxByKeyD ((observations.enum).filter
    (fun q => decide (q.2.d ≤ start_date)))).map Prod.fst

/-- `print_results` of `main.rs` lines 82-101, with the `println!` side
effects rendered as the returned list of printed `(date, rate)` lines:
sort, locate `range_start`, then print every observation from `range_start`
on (range mode) or just the one at `range_start` (single-date mode).
`none` models the `.unwrap()` panics. -/
def print_results (start_date : Date) (is_range : Bool)
    (observations : List Observation) : Option (List (Date × ℚ)) :=
  match Main.rangeStart start_date (Main.sortObs observations) with
  | none => none
  | some range_start =>
      if is_range then
        some (((Main.sortObs observations).drop range_start).map
          (fun obs => (obs.d, obs.v)))
      else ((Main.sortObs observations)[range_start]?).map
        (fun obs => [(obs.d, obs.v)])

end Main

/-- Mathematical floor of a rational, written with explicit floor division so
that concrete instances reduce inside the kernel. -/
def ratFloor (q : ℚ) : ℤ := Int.fdiv q.num (q.den : ℤ)

/-- Round a rational to the nearest integer, ties to the even neighbour: the
`MidpointNearestEven` strategy that `rust_decimal`'s `round_dp` applies by
default. -/
def roundHalfEven (q : ℚ) : ℤ :=
  if q - ratFloor q < 1/2 then ratFloor q
  else if (1/2 : ℚ) < q - ratFloor q then ratFloor q + 1
  else if ratFloor q % 2 = 0 then ratFloor q else ratFloor q + 1

/-- `x.round_dp(4)`: round to exactly 4 decimal places (banker's rounding on
the midpoint). -/
def roundDp4 (q : ℚ) : ℚ := (roundHalfEven (q * 10000) : ℚ) / 10000

/-- The rate transform of `main.rs` lines 61-65 applied to one observation in
reverse mode: `obs.fxusdcad.v = obs.fxusdcad.v.inv().round_dp(4)`, where
`Inv for Decimal` is `Decimal::ONE / self`, the exact reciprocal. -/
def reverseObs (obs : Observation) : Observation :=
  { d := obs.d, v := roundDp4 obs.v⁻¹ }

/-- The success branch of `main` (`main.rs` lines 55-67): parse the body,
apply the reciprocal transform to every observation when `reverse` is set,
then select and print. -/
def mainValidated (fetch : Date → Option Date → FetchOutcome) (args : Cli) :
    RunResult (List (Date × ℚ)) :=
  match fetch args.start_date args.end_date with
  | FetchOutcome.success observations =>
      match Main.print_results args.start_date args.end_date.isSome
        (if args.reverse then observations.map reverseObs else observations) with
      | some lines => RunResult.ok lines
      | none => RunResult.panic
  | FetchOutcome.badBody => RunResult.panic
  | FetchOutcome.httpError body => RunResult.err body
  | FetchOutcome.transportError => RunResult.panic

/-- `main` of `main.rs` lines 32-80.  The request always names the FXUSDCAD
series and depends only on the two dates, so the oracle receives those; the
end-before-start panic fires while the request is being built, before
`.send()` is reached. -/
def main_run (fetch : Date → Option Date → FetchOutcome) (args : Cli) :
    RunResult (List (Date × ℚ)) :=
  match args.end_date with
  | none => mainValidated fetch args
  | some end_date =>
      if end_date < args.start_date then RunResult.panic
      else mainValidated fetch args

/-- Map a function over every printed rate of a run result, leaving dates,
error payloads and panics unchanged; used to state how the reverse-mode
output of `main.rs` relates to the plain output. -/
def mapRates (f : ℚ → ℚ) : RunResult (List (Date × ℚ)) → RunResult (List (Date × ℚ))
  | RunResult.ok lines => RunResult.ok (lines.map (fun line => (line.1, f line.2)))
  | RunResult.err body => RunResult.err body
  | RunResult.panic => RunResult.panic

/-!
Helper lemmas.  The central fact is a characterization of `rangeStart` on a
date-sorted list: the filtered `enumerate` stream is the enumerated
`takeWhile` prefix, whose keys are nondecreasing, so `max_by_key` (which keeps
the last maximal element) returns its last entry — the index
`(takeWhile).length - 1`.
-/

theorem mem_snd_of_mem_enumFrom {q : Nat × Observation} {n : Nat}
    {s : List Observation} (h : q ∈ List.enumFrom n s) : q.2 ∈ s := by
  have h2 : q.2 ∈ (List.enumFrom n s).map Prod.snd := List.mem_map_of_mem Prod.snd h
  rwa [List.enumFrom_map_snd] at h2

theorem sortObs_sorted (l : List Observation) : List.Pairwise obsLE (sortObs l) :=
  List.sorted_insertionSort obsLE l

theorem sortObs_perm (l : List Observation) : (sortObs l).Perm l :=
  List.perm_insertionSort obsLE l

theorem filter_enumFrom_eq_takeWhile (start : Date) :
    ∀ (s : List Observation) (n : Nat), List.Pairwise obsLE s →
      (List.enumFrom n s).filter (fun q => decide (q.2.d ≤ start)) =
        List.enumFrom n (s.takeWhile (fun o => decide (o.d ≤ start)))
  | [], n, _ => by simp
  | x :: xs, n, hs => by
    rw [List.pairwise_cons] at hs
    rw [List.enumFrom_cons, List.filter_cons, List.takeWhile_cons]
    simp only [decide_eq_true_eq]
    by_cases hx : x.d ≤ start
    · rw [if_pos hx, if_pos hx]
      rw [List.enumFrom_cons, filter_enumFrom_eq_takeWhile start xs (n + 1) hs.2]
    · rw [if_neg hx, if_neg hx]
      have hnil : (List.enumFrom (n + 1) xs).filter
          (fun q => decide (q.2.d ≤ start)) = [] := by
        rw [List.filter_eq_nil_iff]
        intro q hq
        simp only [decide_eq_true_eq]
        exact fun hle => hx (le_trans (hs.1 q.2 (mem_snd_of_mem_enumFrom hq)) hle)
      rw [hnil, List.enumFrom_nil]

theorem foldl_maxByKeyStep_eq_getLastD :
    ∀ (ys : List (Nat × Observation)) (x : Nat × Observation),
      (∀ y ∈ ys, x.2.d ≤ y.2.d) →
      List.Pairwise (fun a b : Nat × Observation => a.2.d ≤ b.2.d) ys →
      ys.foldl maxByKeyStep x = ys.getLastD x
  | [], _, _, _ => rfl
  | y :: ys, x, hx, hys => by
    rw [List.pairwise_cons] at hys
    rw [List.foldl_cons, List.getLastD_cons]
    have hstep : maxByKeyStep x y = y := by
      rw [maxByKeyStep, if_neg (Nat.not_lt.mpr (hx y (List.mem_cons_self y ys)))]
    rw [hstep]
    exact foldl_maxByKeyStep_eq_getLastD ys y hys.1 hys.2

theorem maxByKeyD_eq_getLast (ps : List (Nat × Observation))
    (hps : List.Pairwise (fun a b : Nat × Observation => a.2.d ≤ b.2.d) ps) :
    maxByKeyD ps = ps.getLast? := by
  cases ps with
  | nil => rfl
  | cons x xs =>
    rw [List.pairwise_cons] at hps
    rw [maxByKeyD, foldl_maxByKeyStep_eq_getLastD xs x hps.1 hps.2,
      List.getLast?_cons, List.getLastD_eq_getLast?]

theorem getLast?_enumFrom :
    ∀ (t : List Observation) (n : Nat),
      (List.enumFrom n t).getLast? =
        t.getLast?.map (fun o => (n + t.length - 1, o))
  | [], _ => rfl
  | [x], n => by simp [List.enumFrom]
  | x :: y :: t, n => by
    rw [List.enumFrom_cons, List.enumFrom_cons, List.getLast?_cons_cons,
      ← List.enumFrom_cons, getLast?_enumFrom (y :: t) (n + 1),
      List.getLast?_cons_cons]
    have harith : (fun o : Observation => (n + 1 + (y :: t).length - 1, o)) =
        fun o : Observation => (n + (x :: y :: t).length - 1, o) := by
      funext o
      simp only [List.length_cons, Prod.mk.injEq, and_true]
      omega
    rw [harith]

theorem mem_of_getLast_eq {α : Type} :
    ∀ {l : List α} {a : α}, l.getLast? = some a → a ∈ l
  | [], a, h => by simp at h
  | [x], a, h => by simp_all
  | x :: y :: l, a, h => by
    rw [List.getLast?_cons_cons] at h
    exact List.mem_cons_of_mem x (mem_of_getLast_eq h)

theorem length_pos_of_getLast_eq {α : Type} {l : List α} {a : α}
    (h : l.getLast? = some a) : 0 < l.length :=
  List.length_pos.mpr (fun hnil => by subst hnil; simp at h)

theorem le_getLast_of_sorted :
    ∀ (t : List Observation), List.Pairwise obsLE t →
      ∀ {o : Observation}, t.getLast? = some o → ∀ x ∈ t, x.d ≤ o.d
  | [], _, o, _, x, hx => by simp at hx
  | [y], _, o, h, x, hx => by
    simp only [List.getLast?_singleton, Option.some.injEq] at h
    simp only [List.mem_singleton] at hx
    subst h; subst hx; exact Nat.le_refl _
  | y :: z :: zs, ht, o, h, x, hx => by
    rw [List.pairwise_cons] at ht
    rw [List.getLast?_cons_cons] at h
    rcases List.mem_cons.mp hx with rfl | hx2
    · exact ht.1 o (mem_of_getLast_eq h)
    · exact le_getLast_of_sorted (z :: zs) ht.2 h x hx2

theorem takeWhile_ne_nil_of_mem_le (start : Date) :
    ∀ (s : List Observation), List.Pairwise obsLE s →
      ∀ {w : Observation}, w ∈ s → w.d ≤ start →
      s.takeWhile (fun o => decide (o.d ≤ start)) ≠ []
  | [], _, w, hw, _ => by simp at hw
  | x :: xs, hs, w, hw, hwd => by
    rw [List.pairwise_cons] at hs
    have hx : x.d ≤ start := by
      rcases List.mem_cons.mp hw with rfl | hmem
      · exact hwd
      · exact le_trans (hs.1 w hmem) hwd
    rw [List.takeWhile_cons]
    simp [hx]

theorem drop_length_sub_one_eq {α : Type} :
    ∀ {t : List α} {o : α}, t.getLast? = some o → t.drop (t.length - 1) = [o]
  | [], o, h => by simp at h
  | [x], o, h => by simp_all
  | x :: y :: t, o, h => by
    rw [List.getLast?_cons_cons] at h
    have harith : (x :: y :: t).length - 1 = ((y :: t).length - 1) + 1 := by
      simp only [List.length_cons]
      omega
    rw [harith, List.drop_succ_cons]
    exact drop_length_sub_one_eq h

theorem dropWhile_all_gt (start : Date) :
    ∀ (s : List Observation), List.Pairwise obsLE s →
      ∀ o ∈ s.dropWhile (fun o => decide (o.d ≤ start)), start < o.d
  | [], _, o, ho => by simp at ho
  | x :: xs, hs, o, ho => by
    rw [List.pairwise_cons] at hs
    rw [List.dropWhile_cons] at ho
    simp only [decide_eq_true_eq] at ho
    by_cases hx : x.d ≤ start
    · rw [if_pos hx] at ho
      exact dropWhile_all_gt start xs hs.2 o ho
    · rw [if_neg hx] at ho
      rcases List.mem_cons.mp ho with rfl | hmem
      · exact Nat.not_le.mp hx
      · exact Nat.lt_of_lt_of_le (Nat.not_le.mp hx) (hs.1 o hmem)

theorem pairwise_keys_enumFrom {t : List Observation}
    (ht : List.Pairwise obsLE t) (n : Nat) :
    List.Pairwise (fun a b : Nat × Observation => a.2.d ≤ b.2.d)
      (List.enumFrom n t) := by
  have hmap : (List.enumFrom n t).map Prod.snd = t := List.enumFrom_map_snd n t
  rw [← hmap] at ht
  exact (@List.pairwise_map (Nat × Observation) Observation Prod.snd obsLE
    (List.enumFrom n t)).mp ht

theorem rangeStart_of_sorted (start : Date) (s : List Observation)
    (hs : List.Pairwise obsLE s)
    (hne : s.takeWhile (fun o => decide (o.d ≤ start)) ≠ []) :
    rangeStart start s =
      some ((s.takeWhile (fun o => decide (o.d ≤ start))).length - 1) := by
  have htw : List.Pairwise obsLE (s.takeWhile (fun o => decide (o.d ≤ start))) :=
    List.Pairwise.sublist (List.takeWhile_sublist _) hs
  rw [rangeStart, show s.enum = List.enumFrom 0 s from rfl,
    filter_enumFrom_eq_takeWhile start s 0 hs,
    maxByKeyD_eq_getLast _ (pairwise_keys_enumFrom htw 0), getLast?_enumFrom]
  cases hlast : (s.takeWhile (fun o => decide (o.d ≤ start))).getLast? with
  | none =>
    cases htw2 : s.takeWhile (fun o => decide (o.d ≤ start)) with
    | nil => exact absurd htw2 hne
    | cons a as => rw [htw2, List.getLast?_cons] at hlast; simp at hlast
  | some o => simp

theorem rangeStart_none (start : Date) (s : List Observation)
    (h : ∀ o ∈ s, ¬ o.d ≤ start) : rangeStart start s = none := by
  have hnil : (s.enum).filter (fun q => decide (q.2.d ≤ start)) = [] := by
    rw [List.filter_eq_nil_iff]
    intro q hq
    simp only [decide_eq_true_eq]
    exact h q.2 (mem_snd_of_mem_enumFrom hq)
  rw [rangeStart, hnil]
  rfl

theorem filter_rates_none (start : Date) (b : Bool) (l : List Observation)
    (h : ∀ o ∈ l, ¬ o.d ≤ start) : filter_rates start b l = none := by
  have hp := sortObs_perm l
  unfold filter_rates
  rw [rangeStart_none start _ (fun o ho => h o (hp.mem_iff.mp ho))]

theorem filter_rates_spec (l : List Observation) (start : Date)
    (hpre : ∃ o ∈ l, o.d ≤ start) :
    ∃ o : Observation,
      ((sortObs l).takeWhile (fun o => decide (o.d ≤ start))).getLast? = some o ∧
      o ∈ l ∧ o.d ≤ start ∧
      (∀ o' ∈ l, o'.d ≤ start → o'.d ≤ o.d) ∧
      rangeStart start (sortObs l) =
        some (((sortObs l).takeWhile (fun o => decide (o.d ≤ start))).length - 1) ∧
      (sortObs l)[((sortObs l).takeWhile
        (fun o => decide (o.d ≤ start))).length - 1]? = some o ∧
      (sortObs l).drop (((sortObs l).takeWhile
          (fun o => decide (o.d ≤ start))).length - 1) =
        o :: (sortObs l).dropWhile (fun o => decide (o.d ≤ start)) ∧
      filter_rates start false l = some [o] ∧
      filter_rates start true l =
        some (o :: (sortObs l).dropWhile (fun o => decide (o.d ≤ start))) ∧
      (∀ o' ∈ (sortObs l).dropWhile (fun o => decide (o.d ≤ start)), start < o'.d) := by
  obtain ⟨w, hwl, hwd⟩ := hpre
  have hs : List.Pairwise obsLE (sortObs l) := sortObs_sorted l
  have hperm : (sortObs l).Perm l := sortObs_perm l
  have hws : w ∈ sortObs l := hperm.mem_iff.mpr hwl
  have hne := takeWhile_ne_nil_of_mem_le start (sortObs l) hs hws hwd
  obtain ⟨o, ho⟩ : ∃ o,
      ((sortObs l).takeWhile (fun o => decide (o.d ≤ start))).getLast? = some o := by
    cases htw : (sortObs l).takeWhile (fun o => decide (o.d ≤ start)) with
    | nil => exact absurd htw hne
    | cons a as =>
        exact ⟨as.getLastD a, by rw [List.getLast?_cons, List.getLastD_eq_getLast?]⟩
  have hlenpos : 0 < ((sortObs l).takeWhile
      (fun o => decide (o.d ≤ start))).length := length_pos_of_getLast_eq ho
  have htwsorted : List.Pairwise obsLE
      ((sortObs l).takeWhile (fun o => decide (o.d ≤ start))) :=
    List.Pairwise.sublist (List.takeWhile_sublist _) hs
  have homem_t : o ∈ (sortObs l).takeWhile (fun o => decide (o.d ≤ start)) :=
    mem_of_getLast_eq ho
  have hpo := @List.mem_takeWhile_imp Observation
    (fun ob => decide (ob.d ≤ start)) (sortObs l) o homem_t
  have hot : o.d ≤ start := of_decide_eq_true hpo
  have homem : o ∈ l :=
    hperm.mem_iff.mp ((List.takeWhile_sublist _).subset homem_t)
  have hsplit : (sortObs l).takeWhile (fun o => decide (o.d ≤ start)) ++
      (sortObs l).dropWhile (fun o => decide (o.d ≤ start)) = sortObs l :=
    List.takeWhile_append_dropWhile _ _
  have hrs := rangeStart_of_sorted start (sortObs l) hs hne
  have hgt := dropWhile_all_gt start (sortObs l) hs
  have hmax : ∀ o' ∈ l, o'.d ≤ start → o'.d ≤ o.d := by
    intro o' ho'l ho'd
    have ho's : o' ∈ sortObs l := hperm.mem_iff.mpr ho'l
    rw [← hsplit] at ho's
    rcases List.mem_append.mp ho's with hmem | hmem
    · exact le_getLast_of_sorted _ htwsorted ho o' hmem
    · exact absurd ho'd (Nat.not_le.mpr (hgt o' hmem))
  have hget0 : ((sortObs l).takeWhile (fun o => decide (o.d ≤ start)) ++
      (sortObs l).dropWhile (fun o => decide (o.d ≤ start)))[((sortObs l).takeWhile
      (fun o => decide (o.d ≤ start))).length - 1]? = some o := by
    rw [List.getElem?_append, if_pos (by omega), ← List.getLast?_eq_getElem?]
    exact ho
  rw [hsplit] at hget0
  have hdrop0 : ((sortObs l).takeWhile (fun o => decide (o.d ≤ start)) ++
      (sortObs l).dropWhile (fun o => decide (o.d ≤ start))).drop
        (((sortObs l).takeWhile (fun o => decide (o.d ≤ start))).length - 1) =
      o :: (sortObs l).dropWhile (fun o => decide (o.d ≤ start)) := by
    rw [List.drop_append_eq_append_drop, drop_length_sub_one_eq ho]
    have hz : ((sortObs l).takeWhile (fun o => decide (o.d ≤ start))).length - 1 -
        ((sortObs l).takeWhile (fun o => decide (o.d ≤ start))).length = 0 := by
      omega
    rw [hz, List.drop_zero]
    rfl
  rw [hsplit] at hdrop0
  have hget := hget0
  have hdrop := hdrop0
  refine ⟨o, ho, homem, hot, hmax, hrs, hget, hdrop, ?_, ?_, hgt⟩
  · unfold filter_rates
    rw [hrs]
    simp only [Bool.false_eq_true, if_false]
    rw [hget]
    rfl
  · unfold filter_rates
    rw [hrs]
    simp only [if_true]
    rw [hdrop]

theorem main_sortObs_eq : Main.sortObs = sortObs := rfl

theorem main_rangeStart_eq : Main.rangeStart = rangeStart := rfl

theorem main_print_results_eq (start : Date) (b : Bool) (l : List Observation) :
    Main.print_results start b l =
      (filter_rates start b l).map (List.map (fun o => (o.d, o.v))) := by
  unfold Main.print_results filter_rates
  rw [main_sortObs_eq, main_rangeStart_eq]
  cases h : rangeStart start (sortObs l) with
  | none => rfl
  | some rs =>
    cases b with
    | true => rfl
    | false =>
      cases hg : (sortObs l)[rs]? with
      | none => simp [hg]
      | some o => simp [hg]

theorem orderedInsert_map_d (φ : Observation → Observation)
    (hφ : ∀ o, (φ o).d = o.d) (x : Observation) :
    ∀ l : List Observation,
      List.orderedInsert obsLE (φ x) (l.map φ) =
        (List.orderedInsert obsLE x l).map φ
  | [] => rfl
  | y :: ys => by
    have hiff : obsLE (φ x) (φ y) ↔ obsLE x y := by
      rw [obsLE, obsLE, hφ, hφ]
    by_cases h : obsLE x y
    · rw [List.map_cons, List.orderedInsert, List.orderedInsert, if_pos h,
        if_pos (hiff.mpr h), List.map_cons, List.map_cons]
    · rw [List.map_cons, List.orderedInsert, List.orderedInsert, if_neg h,
        if_neg (fun hc => h (hiff.mp hc)), List.map_cons,
        orderedInsert_map_d φ hφ x ys]

theorem sortObs_map_d (φ : Observation → Observation)
    (hφ : ∀ o, (φ o).d = o.d) :
    ∀ l : List Observation, sortObs (l.map φ) = (sortObs l).map φ
  | [] => rfl
  | x :: xs => by
    rw [List.map_cons, sortObs, sortObs, List.insertionSort, List.insertionSort]
    rw [show List.insertionSort obsLE (xs.map φ) = sortObs (xs.map φ) from rfl,
      sortObs_map_d φ hφ xs]
    exact orderedInsert_map_d φ hφ x (sortObs xs)

theorem enumFrom_map_d (φ : Observation → Observation) :
    ∀ (l : List Observation) (n : Nat),
      List.enumFrom n (l.map φ) = (List.enumFrom n l).map (Prod.map id φ)
  | [], _ => rfl
  | x :: xs, n => by
    rw [List.map_cons, List.enumFrom_cons, List.enumFrom_cons, List.map_cons,
      enumFrom_map_d φ xs (n + 1)]
    rfl

theorem foldl_maxByKeyStep_map_d (φ : Observation → Observation)
    (hφ : ∀ o, (φ o).d = o.d) :
    ∀ (ps : List (Nat × Observation)) (x : Nat × Observation),
      (ps.map (Prod.map id φ)).foldl maxByKeyStep (Prod.map id φ x) =
        Prod.map id φ (ps.foldl maxByKeyStep x)
  | [], _ => rfl
  | y :: ys, x => by
    rw [List.map_cons, List.foldl_cons, List.foldl_cons]
    have hstep : maxByKeyStep (Prod.map id φ x) (Prod.map id φ y) =
        Prod.map id φ (maxByKeyStep x y) := by
      rw [maxByKeyStep, maxByKeyStep]
      have hd : (Prod.map id φ y).2.d = y.2.d := hφ y.2
      have hd2 : (Prod.map id φ x).2.d = x.2.d := hφ x.2
      rw [hd, hd2]
      by_cases h : y.2.d < x.2.d
      · rw [if_pos h, if_pos h]
      · rw [if_neg h, if_neg h]
    rw [hstep]
    exact foldl_maxByKeyStep_map_d φ hφ ys (maxByKeyStep x y)

theorem maxByKeyD_map_d (φ : Observation → Observation)
    (hφ : ∀ o, (φ o).d = o.d) (ps : List (Nat × Observation)) :
    maxByKeyD (ps.map (Prod.map id φ)) = (maxByKeyD ps).map (Prod.map id φ) := by
  cases ps with
  | nil => rfl
  | cons x xs =>
    rw [List.map_cons, maxByKeyD, maxByKeyD, foldl_maxByKeyStep_map_d φ hφ xs x]
    rfl

theorem rangeStart_map_d (φ : Observation → Observation)
    (hφ : ∀ o, (φ o).d = o.d) (start : Date) (l : List Observation) :
    rangeStart start (l.map φ) = rangeStart start l := by
  rw [rangeStart, rangeStart,
    show (l.map φ).enum = List.enumFrom 0 (l.map φ) from rfl,
    show l.enum = List.enumFrom 0 l from rfl, enumFrom_map_d φ l 0]
  have hf : ((List.enumFrom 0 l).map (Prod.map id φ)).filter
      (fun q => decide (q.2.d ≤ start)) =
      ((List.enumFrom 0 l).filter (fun q => decide (q.2.d ≤ start))).map
        (Prod.map id φ) := by
    rw [List.filter_map]
    have hp : ((fun q : Nat × Observation => decide (q.2.d ≤ start)) ∘
        Prod.map id φ) = fun q : Nat × Observation => decide (q.2.d ≤ start) := by
      funext q
      simp only [Function.comp_apply]
      rw [show (Prod.map id φ q).2 = φ q.2 from rfl, hφ]
    rw [hp]
  rw [hf, maxByKeyD_map_d φ hφ, Option.map_map]
  have hfst : (Prod.fst ∘ Prod.map id φ) =
      (Prod.fst : Nat × Observation → Nat) := by
    funext q
    rfl
  rw [hfst]

theorem filter_rates_map_d (φ : Observation → Observation)
    (hφ : ∀ o, (φ o).d = o.d) (start : Date) (b : Bool) (l : List Observation) :
    filter_rates start b (l.map φ) = (filter_rates start b l).map (List.map φ) := by
  unfold filter_rates
  rw [sortObs_map_d φ hφ l, rangeStart_map_d φ hφ start (sortObs l)]
  cases h : rangeStart start (sortObs l) with
  | none => rfl
  | some rs =>
    cases b with
    | true =>
      simp only [if_true]
      rw [← List.map_drop]
      rfl
    | false =>
      simp only [Bool.false_eq_true, if_false]
      rw [List.getElem?_map]
      cases hg : (sortObs l)[rs]? with
      | none => rfl
      | some o => rfl

theorem sortObs_strict_of_nodup {l : List Observation}
    (hnd : (l.map Observation.d).Nodup) :
    List.Pairwise obsLT (sortObs l) := by
  have hle : List.Pairwise obsLE (sortObs l) := sortObs_sorted l
  have hndS : ((sortObs l).map Observation.d).Nodup :=
    (((sortObs_perm l).map Observation.d).symm).nodup hnd
  have hne : List.Pairwise (fun a b : Observation => a.d ≠ b.d) (sortObs l) :=
    (@List.pairwise_map Observation Date Observation.d Ne (sortObs l)).mp hndS
  exact (hle.and hne).imp (fun h => Nat.lt_of_le_of_ne h.1 h.2)

theorem sortObs_eq_of_perm_nodup {l₁ l₂ : List Observation}
    (hperm : l₁.Perm l₂) (hnd : (l₁.map Observation.d).Nodup) :
    sortObs l₁ = sortObs l₂ := by
  have hp : (sortObs l₁).Perm (sortObs l₂) :=
    (sortObs_perm l₁).trans (hperm.trans (sortObs_perm l₂).symm)
  have hnd₂ : (l₂.map Observation.d).Nodup := (hperm.map Observation.d).nodup hnd
  exact List.eq_of_perm_of_sorted hp (sortObs_strict_of_nodup hnd)
    (sortObs_strict_of_nodup hnd₂)

theorem filter_rates_output_shape (l : List Observation) (start : Date) (b : Bool)
    (r : List Observation) (h : filter_rates start b l = some r) :
    ∃ o rest, r = o :: rest ∧ ∀ x ∈ rest, o.d < x.d := by
  by_cases hpre : ∃ w ∈ l, w.d ≤ start
  · obtain ⟨o, _, _, hole, _, _, _, _, hsingle, hrange, hgt⟩ :=
      filter_rates_spec l start hpre
    cases b with
    | false =>
      rw [hsingle] at h
      refine ⟨o, [], (Option.some_inj.mp h).symm, ?_⟩
      intro x hx
      simp at hx
    | true =>
      rw [hrange] at h
      refine ⟨o, _, (Option.some_inj.mp h).symm, ?_⟩
      intro x hx
      exact Nat.lt_of_le_of_lt hole (hgt x hx)
  · push_neg at hpre
    rw [filter_rates_none start b l (fun o ho => Nat.not_le.mpr (hpre o ho))] at h
    exact absurd h (by simp)

theorem filter_rates_rerun_head (o : Observation) (rest : List Observation)
    (hrest : ∀ x ∈ rest, o.d < x.d) :
    filter_rates o.d false (o :: rest) = some [o] := by
  obtain ⟨o₂, _, ho₂mem, ho₂le, _, _, _, _, hsingle, _, _⟩ :=
    filter_rates_spec (o :: rest) o.d ⟨o, List.mem_cons_self o rest, Nat.le_refl o.d⟩
  have ho₂ : o₂ = o := by
    rcases List.mem_cons.mp ho₂mem with h | h
    · exact h
    · exact absurd ho₂le (Nat.not_le.mpr (hrest o₂ h))
  rwa [ho₂] at hsingle

theorem print_results_map_rate (vf : ℚ → ℚ) (start : Date) (b : Bool)
    (l : List Observation) :
    Main.print_results start b (l.map (fun o => { d := o.d, v := vf o.v })) =
      (Main.print_results start b l).map
        (List.map (fun line => (line.1, vf line.2))) := by
  rw [main_print_results_eq, main_print_results_eq,
    filter_rates_map_d (fun o => { d := o.d, v := vf o.v }) (fun _ => rfl) start b l]
  cases filter_rates start b l with
  | none => rfl
  | some r =>
    simp only [Option.map_some', List.map_map]
    rfl

/-- C1: for every observation list with at least one observation dated at or
before `start_date`, in which no observation is dated exactly `start_date`,
single-date selection returns exactly one observation, drawn from the input,
dated strictly before `start_date`, and its date is the largest date strictly
below `start_date` among the dates present in the input. -/
theorem c1_single_date_gap (l : List Observation) (start : Date)
    (hpre : ∃ o ∈ l, o.d ≤ start) (hgap : ∀ o ∈ l, o.d ≠ start) :
    ∃ o ∈ l, o.d < start ∧
      (∀ o' ∈ l, o'.d < start → o'.d ≤ o.d) ∧
      filter_rates start false l = some [o] := by
  obtain ⟨o, _, homem, hot, hmax, _, _, _, hsingle, _, _⟩ :=
    filter_rates_spec l start hpre
  exact ⟨o, homem, Nat.lt_of_le_of_ne hot (hgap o homem),
    fun o' h1 h2 => hmax o' h1 (Nat.le_of_lt h2), hsingle⟩

theorem c1_witness :
    (∃ o ∈ ([⟨3, 1⟩, ⟨7, 2⟩] : List Observation), o.d ≤ 5) ∧
      (∀ o ∈ ([⟨3, 1⟩, ⟨7, 2⟩] : List Observation), o.d ≠ 5) ∧
      ∃ o ∈ ([⟨3, 1⟩, ⟨7, 2⟩] : List Observation), o.d < 5 ∧
        (∀ o' ∈ ([⟨3, 1⟩, ⟨7, 2⟩] : List Observation), o'.d < 5 → o'.d ≤ o.d) ∧
        filter_rates 5 false [⟨3, 1⟩, ⟨7, 2⟩] = some [o] :=
  ⟨by decide, by decide,
    c1_single_date_gap [⟨3, 1⟩, ⟨7, 2⟩] 5 (by decide) (by decide)⟩

/-- C2: for every observation list containing an observation dated exactly
`start_date`, single-date selection returns a one-element result containing an
input observation with that exact date (observations are compared by date, as
in `Ord`/`PartialEq for Observation`). -/
theorem c2_single_date_exact (l : List Observation) (start : Date)
    (hex : ∃ o ∈ l, o.d = start) :
    ∃ o ∈ l, o.d = start ∧ filter_rates start false l = some [o] := by
  obtain ⟨w, hwl, hwd⟩ := hex
  obtain ⟨o, _, homem, hot, hmax, _, _, _, hsingle, _, _⟩ :=
    filter_rates_spec l start ⟨w, hwl, Nat.le_of_eq hwd⟩
  exact ⟨o, homem, Nat.le_antisymm hot (hwd ▸ hmax w hwl (Nat.le_of_eq hwd)),
    hsingle⟩

theorem c2_witness :
    (∃ o ∈ ([⟨5, 1⟩] : List Observation), o.d = 5) ∧
      ∃ o ∈ ([⟨5, 1⟩] : List Observation), o.d = 5 ∧
        filter_rates 5 false [⟨5, 1⟩] = some [o] :=
  ⟨by decide, c2_single_date_exact [⟨5, 1⟩] 5 (by decide)⟩

/-- C3: for every observation list with at least one observation dated at or
before `start_date`, range-mode selection returns exactly the suffix of the
date-sorted list starting at `range_start_index` — the index of the
observation with the latest date at or before `start_date` — through the end
of the list, in ascending date order.  In particular nothing is cut off on
the right: the result always runs to the end of the (already right-bounded)
input. -/
theorem c3_range_suffix (l : List Observation) (start : Date)
    (hpre : ∃ o ∈ l, o.d ≤ start) :
    ∃ k o, (sortObs l)[k]? = some o ∧ o.d ≤ start ∧
      (∀ j o', (sortObs l)[j]? = some o' → o'.d ≤ start → j ≤ k) ∧
      filter_rates start true l = some ((sortObs l).drop k) ∧
      List.Pairwise obsLE ((sortObs l).drop k) := by
  obtain ⟨o, ho, _, hot, _, _, hget, hdrop, _, hrangeEq, hgt⟩ :=
    filter_rates_spec l start hpre
  have hlen := length_pos_of_getLast_eq ho
  refine ⟨((sortObs l).takeWhile (fun ob => decide (ob.d ≤ start))).length - 1, o,
    hget, hot, ?_, ?_,
    List.Pairwise.sublist (List.drop_sublist _ _) (sortObs_sorted l)⟩
  · intro j o' hj ho'
    by_contra hgt_j
    push_neg at hgt_j
    have hsplit := List.takeWhile_append_dropWhile
      (fun ob : Observation => decide (ob.d ≤ start)) (sortObs l)
    rw [← hsplit, List.getElem?_append_right (by omega)] at hj
    have ho'mem : o' ∈ (sortObs l).dropWhile (fun ob => decide (ob.d ≤ start)) :=
      List.getElem?_mem hj
    exact absurd ho' (Nat.not_le.mpr (hgt o' ho'mem))
  · rw [hrangeEq, hdrop]

theorem c3_witness :
    (∃ o ∈ ([⟨3, 1⟩, ⟨7, 2⟩] : List Observation), o.d ≤ 5) ∧
      ∃ k o, (sortObs [⟨3, 1⟩, ⟨7, 2⟩])[k]? = some o ∧ o.d ≤ 5 ∧
        (∀ j o', (sortObs [⟨3, 1⟩, ⟨7, 2⟩])[j]? = some o' → o'.d ≤ 5 → j ≤ k) ∧
        filter_rates 5 true [⟨3, 1⟩, ⟨7, 2⟩] =
          some ((sortObs [⟨3, 1⟩, ⟨7, 2⟩]).drop k) ∧
        List.Pairwise obsLE ((sortObs [⟨3, 1⟩, ⟨7, 2⟩]).drop k) :=
  ⟨by decide, c3_range_suffix [⟨3, 1⟩, ⟨7, 2⟩] 5 (by decide)⟩

/-- C4 counterexample: on the input `[(5, 0), (6, 0), (6, 1)]` — which has
two observations sharing the date 6 — the range query `start = 5`,
`end = 6 ≥ start` satisfies the precondition, yet the elements after the
first in the result are NOT strictly increasing in date, refuting the claim
as stated (the dates run 5, 6, 6). -/
theorem c4_counterexample :
    (5 : Date) ≤ 6 ∧
      (∃ o ∈ ([⟨5, 0⟩, ⟨6, 0⟩, ⟨6, 1⟩] : List Observation), o.d ≤ 5) ∧
      filter_rates 5 true [⟨5, 0⟩, ⟨6, 0⟩, ⟨6, 1⟩] =
        some [⟨5, 0⟩, ⟨6, 0⟩, ⟨6, 1⟩] ∧
      ¬ List.Pairwise obsLT ([⟨6, 0⟩, ⟨6, 1⟩] : List Observation) :=
  ⟨by decide, by decide, by decide, by decide⟩

/-- C4 (amended: the strict increase additionally requires the input dates to
be pairwise distinct, which the spec elsewhere assumes): for every range-mode
query with `end_date ≥ start_date` over an input satisfying the precondition
whose dates are pairwise distinct, the first element of the result is dated
at or before `start_date` and carries the maximal such date present in the
input, and the whole result is strictly increasing in date. -/
theorem c4_range_first_max_strict (l : List Observation) (start end_ : Date)
    (hrange : start ≤ end_) (hpre : ∃ o ∈ l, o.d ≤ start)
    (hnd : (l.map Observation.d).Nodup) :
    ∃ o rest, filter_rates start true l = some (o :: rest) ∧ o.d ≤ start ∧
      (∀ o' ∈ l, o'.d ≤ start → o'.d ≤ o.d) ∧
      List.Pairwise obsLT (o :: rest) := by
  obtain ⟨o, _, _, hot, hmax, _, _, hdrop, _, hrangeEq, _⟩ :=
    filter_rates_spec l start hpre
  refine ⟨o, _, hrangeEq, hot, hmax, ?_⟩
  have hp : List.Pairwise obsLT ((sortObs l).drop
      (((sortObs l).takeWhile (fun ob => decide (ob.d ≤ start))).length - 1)) :=
    List.Pairwise.sublist (List.drop_sublist _ _) (sortObs_strict_of_nodup hnd)
  rwa [hdrop] at hp

theorem c4_witness :
    (5 : Date) ≤ 9 ∧ (∃ o ∈ ([⟨3, 1⟩, ⟨7, 2⟩] : List Observation), o.d ≤ 5) ∧
      (([⟨3, 1⟩, ⟨7, 2⟩] : List Observation).map Observation.d).Nodup ∧
      ∃ o rest, filter_rates 5 true [⟨3, 1⟩, ⟨7, 2⟩] = some (o :: rest) ∧
        o.d ≤ 5 ∧
        (∀ o' ∈ ([⟨3, 1⟩, ⟨7, 2⟩] : List Observation), o'.d ≤ 5 → o'.d ≤ o.d) ∧
        List.Pairwise obsLT (o :: rest) :=
  ⟨by decide, by decide, by decide,
    c4_range_first_max_strict [⟨3, 1⟩, ⟨7, 2⟩] 5 9 (by decide) (by decide)
      (by decide)⟩

/-- C5: when no input observation is dated at or before `start_date` (in
particular on the empty input), selection fails — `filter_rates` of `lib.rs`
panics (`none`) and `print_results` of `main.rs` panics (`none`) — and no
result is produced or fabricated. -/
theorem c5_no_data_fails (l lm : List Observation) (start : Date) (b bm : Bool)
    (h : ∀ o ∈ l, ¬ o.d ≤ start) (hm : ∀ o ∈ lm, ¬ o.d ≤ start) :
    filter_rates start b l = none ∧ Main.print_results start bm lm = none := by
  refine ⟨filter_rates_none start b l h, ?_⟩
  rw [main_print_results_eq, filter_rates_none start bm lm hm]
  rfl

theorem c5_witness :
    (∀ o ∈ ([⟨9, 1⟩] : List Observation), ¬ o.d ≤ 5) ∧
      (∀ o ∈ ([] : List Observation), ¬ o.d ≤ 5) ∧
      (filter_rates 5 true [⟨9, 1⟩] = none ∧
        Main.print_results 5 false [] = none) :=
  ⟨by decide, by decide,
    c5_no_data_fails [⟨9, 1⟩] [] 5 true false (by decide) (by decide)⟩

/-- C6: whenever the end date is present and precedes the start date, both
variants panic while still building the request — before any network call is
attempted, which is expressed by quantifying over every possible fetch
oracle — and no observations are returned. -/
theorem c6_end_before_start (fetch : Cli → FetchOutcome)
    (fetchm : Date → Option Date → FetchOutcome) (args : Cli) (e : Date)
    (he : args.end_date = some e) (hlt : e < args.start_date) :
    retrieve_rates fetch args = RunResult.panic ∧
      main_run fetchm args = RunResult.panic := by
  constructor
  · unfold retrieve_rates
    rw [he]
    simp [hlt]
  · unfold main_run
    rw [he]
    simp [hlt]

theorem c6_witness :
    ((⟨5, some 3, false⟩ : Cli).end_date = some 3) ∧ (3 : Date) < 5 ∧
      (retrieve_rates (fun _ => FetchOutcome.transportError) ⟨5, some 3, false⟩ =
          RunResult.panic ∧
        main_run (fun _ _ => FetchOutcome.transportError) ⟨5, some 3, false⟩ =
          RunResult.panic) :=
  ⟨rfl, by decide,
    c6_end_before_start (fun _ => FetchOutcome.transportError)
      (fun _ _ => FetchOutcome.transportError) (⟨5, some 3, false⟩ : Cli) 3 rfl
      (by decide)⟩

/-- C7 counterexample: the two-element lists `[(0, 1), (0, 2)]` and
`[(0, 2), (0, 1)]` are permutations of one another, but single-date selection
at `start_date = 0` returns `[(0, 2)]` for the first and `[(0, 1)]` for the
second: with duplicate dates carrying different rates, no date-only
comparison sort can make selection permutation-invariant, refuting the claim
as stated. -/
theorem c7_counterexample :
    ([⟨0, 1⟩, ⟨0, 2⟩] : List Observation).Perm [⟨0, 2⟩, ⟨0, 1⟩] ∧
      filter_rates 0 false [⟨0, 1⟩, ⟨0, 2⟩] ≠
        filter_rates 0 false [⟨0, 2⟩, ⟨0, 1⟩] :=
  ⟨List.Perm.swap (⟨0, 2⟩ : Observation) ⟨0, 1⟩ [], by decide⟩

/-- C7 (amended: order-independence requires the input dates to be pairwise
distinct, which the spec's data model assumes of the source): for every two
inputs that are permutations of one another, with pairwise-distinct dates,
selection gives identical results in both modes — the selector sorts
internally, and with distinct dates the date-sorted list is unique. -/
theorem c7_perm_invariant (l₁ l₂ : List Observation) (start : Date) (b : Bool)
    (hperm : l₁.Perm l₂) (hnd : (l₁.map Observation.d).Nodup) :
    filter_rates start b l₁ = filter_rates start b l₂ := by
  unfold filter_rates
  rw [sortObs_eq_of_perm_nodup hperm hnd]

theorem c7_witness :
    ([⟨3, 1⟩, ⟨7, 2⟩] : List Observation).Perm [⟨7, 2⟩, ⟨3, 1⟩] ∧
      (([⟨3, 1⟩, ⟨7, 2⟩] : List Observation).map Observation.d).Nodup ∧
      filter_rates 5 false [⟨3, 1⟩, ⟨7, 2⟩] =
        filter_rates 5 false [⟨7, 2⟩, ⟨3, 1⟩] :=
  ⟨List.Perm.swap (⟨7, 2⟩ : Observation) ⟨3, 1⟩ [], by decide,
    c7_perm_invariant [⟨3, 1⟩, ⟨7, 2⟩] [⟨7, 2⟩, ⟨3, 1⟩] 5 false
      (List.Perm.swap (⟨7, 2⟩ : Observation) ⟨3, 1⟩ []) (by decide)⟩

/-- C8: selection is idempotent — whenever selection succeeds and `o₀` is the
first observation of its output, re-running single-date selection on that
output with `start_date = o₀.d` returns exactly `[o₀]` again. -/
theorem c8_idempotent (l : List Observation) (start : Date) (b : Bool)
    (r : List Observation) (o₀ : Observation)
    (hrun : filter_rates start b l = some r) (hhead : r.head? = some o₀) :
    filter_rates o₀.d false r = some [o₀] := by
  obtain ⟨o, rest, rfl, hrest⟩ := filter_rates_output_shape l start b r hrun
  have ho : o₀ = o := by
    rw [List.head?_cons] at hhead
    exact (Option.some_inj.mp hhead).symm
  subst ho
  exact filter_rates_rerun_head o₀ rest hrest

theorem c8_witness :
    filter_rates 3 false [⟨3, 1⟩] = some [⟨3, 1⟩] ∧
      ([⟨3, 1⟩] : List Observation).head? = some ⟨3, 1⟩ ∧
      filter_rates 3 false [⟨3, 1⟩] = some [⟨3, 1⟩] :=
  ⟨by decide, rfl,
    c8_idempotent [⟨3, 1⟩] 3 false [⟨3, 1⟩] ⟨3, 1⟩ (by decide) rfl⟩

/-- C9: the date-selection cores of the two variants are equivalent — for
every input list, start date and mode flag, `print_results` of `main.rs`
prints exactly the observations that `filter_rates` of `lib.rs` selects, with
the same dates in the same order (and the two panic in exactly the same
cases). -/
theorem c9_variants_equivalent (start : Date) (b : Bool) (l : List Observation) :
    Main.print_results start b l =
      (filter_rates start b l).map (List.map (fun o => (o.d, o.v))) :=
  main_print_results_eq start b l

/-- C10: in the `main.rs` variant, with the reverse flag set, every fetched
rate is replaced — before selection and printing — by its exact decimal
reciprocal rounded to exactly 4 decimal places (banker's rounding, the
`rust_decimal` default); with the flag unset rates pass through unchanged.
Consequently, on any fetch that succeeds with nonzero rates, the reverse run
prints the very same dates as the plain run and each printed rate is the
rounded reciprocal of the plain run's rate. -/
theorem c10_reverse_reciprocal (fetch : Date → Option Date → FetchOutcome)
    (s : Date) (e : Option Date) (obs : List Observation)
    (hf : fetch s e = FetchOutcome.success obs)
    (hnz : ∀ o ∈ obs, o.v ≠ 0) :
    main_run fetch ⟨s, e, true⟩ =
      mapRates (fun v => roundDp4 v⁻¹) (main_run fetch ⟨s, e, false⟩) := by
  have key : mainValidated fetch ⟨s, e, true⟩ =
      mapRates (fun v => roundDp4 v⁻¹) (mainValidated fetch ⟨s, e, false⟩) := by
    unfold mainValidated
    simp only [hf]
    simp only [if_true, Bool.false_eq_true, if_false]
    rw [show obs.map reverseObs =
        obs.map (fun o => { d := o.d, v := roundDp4 o.v⁻¹ }) from rfl,
      print_results_map_rate (fun v => roundDp4 v⁻¹) s
        ((⟨s, e, true⟩ : Cli).end_date.isSome) obs]
    cases Main.print_results s ((⟨s, e, true⟩ : Cli).end_date.isSome) obs with
    | none => rfl
    | some lines => rfl
  cases e with
  | none => exact key
  | some e2 =>
    by_cases hel : e2 < s
    · show (if e2 < s then RunResult.panic
          else mainValidated fetch ⟨s, some e2, true⟩) =
        mapRates (fun v => roundDp4 v⁻¹)
          (if e2 < s then RunResult.panic
            else mainValidated fetch ⟨s, some e2, false⟩)
      rw [if_pos hel, if_pos hel]
      rfl
    · show (if e2 < s then RunResult.panic
          else mainValidated fetch ⟨s, some e2, true⟩) =
        mapRates (fun v => roundDp4 v⁻¹)
          (if e2 < s then RunResult.panic
            else mainValidated fetch ⟨s, some e2, false⟩)
      rw [if_neg hel, if_neg hel]
      exact key

theorem c10_witness :
    ((fun _ _ => FetchOutcome.success [⟨5, 2⟩] :
        Date → Option Date → FetchOutcome) 5 none =
      FetchOutcome.success [⟨5, 2⟩]) ∧
      (∀ o ∈ ([⟨5, 2⟩] : List Observation), o.v ≠ 0) ∧
      main_run (fun _ _ => FetchOutcome.success [⟨5, 2⟩]) ⟨5, none, true⟩ =
        mapRates (fun v => roundDp4 v⁻¹)
          (main_run (fun _ _ => FetchOutcome.success [⟨5, 2⟩]) ⟨5, none, false⟩) :=
  ⟨rfl, by decide,
    c10_reverse_reciprocal (fun _ _ => FetchOutcome.success [⟨5, 2⟩]) 5 none
      [⟨5, 2⟩] rfl (by decide)⟩

/-- The scenarios of the repository's own `test_date_ranges` unit test
(`lib.rs` lines 141-175), replayed against the embedding with January dates
encoded as their day numbers and a fetched window starting 10 days back:
single business day, multiple business days, single non-business day,
range ending in a non-business day, and a range starting on non-business
days. -/
theorem filter_rates_matches_repo_tests :
    (filter_rates 15 false
      ((List.map (fun n => { d := n, v := 1 }) [6, 7, 8, 9, 10, 13, 14, 15]))).map
        (List.map Observation.d) = some [15] ∧
    (filter_rates 15 true
      ((List.map (fun n => { d := n, v := 1 })
        [6, 7, 8, 9, 10, 13, 14, 15, 16, 17]))).map
        (List.map Observation.d) = some [15, 16, 17] ∧
    (filter_rates 18 false
      ((List.map (fun n => { d := n, v := 1 })
        [8, 9, 10, 13, 14, 15, 16, 17]))).map
        (List.map Observation.d) = some [17] ∧
    (filter_rates 18 true
      ((List.map (fun n => { d := n, v := 1 })
        [8, 9, 10, 13, 14, 15, 16, 17]))).map
        (List.map Observation.d) = some [17] ∧
    (filter_rates 18 true
      ((List.map (fun n => { d := n, v := 1 })
        [8, 9, 10, 13, 14, 15, 16, 17, 20, 21]))).map
        (List.map Observation.d) = some [17, 20, 21] ∧
    (filter_rates 15 true
      ((List.map (fun n => { d := n, v := 1 })
        [6, 7, 8, 9, 10, 13, 14, 15, 16, 17, 20, 21]))).map
        (List.map Observation.d) = some [15, 16, 17, 20, 21] := by
  refine ⟨by decide, by decide, by decide, by decide, by decide, by decide⟩
